import Mathlib

/-!
Verification development for the EngineNoSQL storage and query engine.

The definitions below are a shallow embedding of the Go sources:
  * `internal/engine/storage.go` — documents, collections, indexes,
    Insert/Update/Delete/Find/CreateIndex and the index-maintenance helpers;
  * the query/aggregation file — QueryBuilder (filters, bubble sort,
    skip/limit), `compareValues`, and the aggregation group stage;
  * the import/export file — the overwrite step of `ImportData`.

Go maps are embedded as association lists (`List (String × α)`) with
insert-or-replace (`mapInsert`), key removal (`mapErase`) and first-match
lookup (`mlookup`); iteration order of a Go map is unspecified, the list
order is the order the embedding fixes.  Go `float64` arithmetic and
`strconv.ParseFloat` are modelled exactly over `ℚ` (no rounding, and the
textual forms accepted are the plain decimal/exponent forms — the exotic
`Inf`/`NaN`/hex/underscore spellings are out of the model).  Timestamps
are modelled as an abstract `Nat` clock value passed to each mutation.
-/

namespace EngineNoSQL

/-- Dynamic values stored in document data, modelling the subset of Go
`interface{}` values the engine manipulates: nil, bool, integers, strings
and arrays.  (Floats and nested objects are outside the model; no claim
depends on them.) -/
inductive Value where
  | vNull : Value
  | vBool : Bool → Value
  | vInt : Int → Value
  | vStr : String → Value
  | vArr : List Value → Value


mutual

/-- Stringification of a value, modelling Go `fmt.Sprintf` with verb `%v`:
integers in decimal, booleans as `true`/`false`, nil as `<nil>`, strings
verbatim, slices bracketed with space-separated elements. -/
def stringify : Value → String
  | .vNull => ("<nil>")
  | .vBool b => if b then ("true") else ("false")
  | .vInt n => toString n
  | .vStr s => s
  | .vArr l => ("[") ++ stringifyList l ++ ("]")

/-- Space-separated stringification of a list of values (Go `%v` on a slice). -/
def stringifyList : List Value → String
  | [] => ("")
  | [x] => stringify x
  | x :: y :: rest => stringify x ++ (" ") ++ stringifyList (y :: rest)

end

/-- Numeric value of a list of decimal digit characters. -/
def digitsToNat (ds : List Char) : Nat :=
  ds.foldl (fun a c => a * 10 + (c.toNat - 48)) 0

/-- Ten to an integer power, as a rational. -/
def qpow10 (e : Int) : ℚ :=
  if 0 ≤ e then (10 : ℚ) ^ e.toNat else 1 / (10 : ℚ) ^ (-e).toNat

/-- Exponent suffix of a float literal: optional sign then a nonempty digit
run (the part after `e`/`E` accepted by Go `strconv.ParseFloat`). -/
def parseExpPart (cs : List Char) : Option Int :=
  match cs with
  | [] => none
  | '+' :: t =>
    if t ≠ [] ∧ t.all Char.isDigit then some (Int.ofNat (digitsToNat t)) else none
  | '-' :: t =>
    if t ≠ [] ∧ t.all Char.isDigit then some (-(Int.ofNat (digitsToNat t))) else none
  | t =>
    if t ≠ [] ∧ t.all Char.isDigit then some (Int.ofNat (digitsToNat t)) else none

/-- Model of Go `strconv.ParseFloat(s, 64)` over exact rationals: an
optional sign, a decimal mantissa (digits, with an optional point and
fractional digits, at least one digit overall) and an optional `e`/`E`
exponent.  Arithmetic is exact; the `Inf`/`NaN`/hex/underscore spellings
accepted by Go are outside the model (no claim involves them). -/
def goParseFloat (s : String) : Option ℚ :=
  let cs := s.data
  let sgn : ℚ :=
    match cs with
    | '+' :: _ => 1
    | '-' :: _ => -1
    | _ => 1
  let rest : List Char :=
    match cs with
    | '+' :: t => t
    | '-' :: t => t
    | t => t
  let ip := rest.takeWhile Char.isDigit
  let rest1 := rest.dropWhile Char.isDigit
  match rest1 with
  | [] => if ip = [] then none else some (sgn * (digitsToNat ip : ℚ))
  | '.' :: t =>
    let fp := t.takeWhile Char.isDigit
    let rest2 := t.dropWhile Char.isDigit
    if ip = [] ∧ fp = [] then none
    else
      let mant : ℚ := sgn * ((digitsToNat ip : ℚ) + (digitsToNat fp : ℚ) / (10 : ℚ) ^ fp.length)
      match rest2 with
      | [] => some mant
      | c :: t2 =>
        if c = 'e' ∨ c = 'E' then (parseExpPart t2).map (fun e => mant * qpow10 e) else none
  | c :: t2 =>
    if ip = [] then none
    else if c = 'e' ∨ c = 'E' then
      (parseExpPart t2).map (fun e => sgn * (digitsToNat ip : ℚ) * qpow10 e)
    else none

/-- Three-way lexicographic comparison of character lists (Go `<`/`>` on
strings; UTF-8 byte order coincides with code-point order). -/
def strCmpAux : List Char → List Char → Int
  | [], [] => 0
  | [], _ :: _ => -1
  | _ :: _, [] => 1
  | a :: as, b :: bs => if a < b then -1 else if b < a then 1 else strCmpAux as bs

/-- Three-way lexicographic comparison of strings. -/
def strCmpInt (a b : String) : Int :=
  strCmpAux a.data b.data

/-- Embedding of `compareValues` (query file): stringify both values; if
both stringifications parse as numbers compare numerically, otherwise
compare the strings lexicographically. -/
def compareValues (a b : Value) : Int :=
  let aStr := stringify a
  let bStr := stringify b
  match goParseFloat aStr, goParseFloat bStr with
  | some x, some y => if x < y then -1 else if y < x then 1 else 0
  | some _, none => strCmpInt aStr bStr
  | none, some _ => strCmpInt aStr bStr
  | none, none => strCmpInt aStr bStr

/-- First-match lookup in an association list (Go map read `m[k]`). -/
def mlookup {α : Type} (k : String) : List (String × α) → Option α
  | [] => none
  | p :: rest => if p.1 = k then some p.2 else mlookup k rest

/-- Insert-or-replace in an association list (Go map write `m[k] = v`). -/
def mapInsert {α : Type} (k : String) (v : α) : List (String × α) → List (String × α)
  | [] => [(k, v)]
  | p :: rest => if p.1 = k then (k, v) :: rest else p :: mapInsert k v rest

/-- Key removal from an association list (Go `delete(m, k)`). -/
def mapErase {α : Type} (k : String) (m : List (String × α)) : List (String × α) :=
  m.filter (fun p => decide (p.1 ≠ k))

/-- Embedding of `Document` (storage.go): id, data map, timestamps. -/
structure Document where
  id : String
  data : List (String × Value)
  created_at : Nat
  updated_at : Nat


/-- Embedding of `Index` (storage.go): indexed field and the map from
stringified field value to document id. -/
structure Index where
  field : String
  values : List (String × String)


/-- Embedding of `Collection` (storage.go): name, documents by id,
indexes by field name.  (The mutex is runtime state, not modelled.) -/
structure Collection where
  name : String
  documents : List (String × Document)
  indexes : List (String × Index)


/-- One index after `updateIndexes` (storage.go lines 249-257) touches it:
if the document has the indexed field, the entry at the stringified value
is set to the document id. -/
def applyIdxUpdate (doc : Document) (f : String) (idx : Index) : Index :=
  match mlookup f doc.data with
  | some v => { field := idx.field, values := mapInsert (stringify v) doc.id idx.values }
  | none => idx

/-- Embedding of `updateIndexes` (storage.go lines 249-257). -/
def updateIndexes (idxs : List (String × Index)) (doc : Document) : List (String × Index) :=
  idxs.map (fun p => (p.1, applyIdxUpdate doc p.1 p.2))

/-- One index after `removeFromIndexes` (storage.go lines 260-268) touches
it: if the document has the indexed field, the entry at the stringified
old value is deleted — unconditionally, whatever id it maps to. -/
def applyIdxRemove (doc : Document) (f : String) (idx : Index) : Index :=
  match mlookup f doc.data with
  | some v => { field := idx.field, values := mapErase (stringify v) idx.values }
  | none => idx

/-- Embedding of `removeFromIndexes` (storage.go lines 260-268). -/
def removeFromIndexes (idxs : List (String × Index)) (doc : Document) : List (String × Index) :=
  idxs.map (fun p => (p.1, applyIdxRemove doc p.1 p.2))

/-- Embedding of `Collection.Insert` (storage.go lines 125-144). -/
def Collection.insert (c : Collection) (id : String) (data : List (String × Value))
    (now : Nat) : Except String Collection :=
  match mlookup id c.documents with
  | some _ => .error ("document already exists")
  | none =>
    let doc : Document := { id := id, data := data, created_at := now, updated_at := now }
    .ok { c with documents := mapInsert id doc c.documents,
                 indexes := updateIndexes c.indexes doc }

/-- Embedding of `Collection.Update` (storage.go lines 147-167): remove the
old index contributions, replace the data wholesale, refresh `updated_at`,
re-register with the indexes. -/
def Collection.update (c : Collection) (id : String) (data : List (String × Value))
    (now : Nat) : Except String Collection :=
  match mlookup id c.documents with
  | none => .error ("document not found")
  | some doc =>
    let idxs := removeFromIndexes c.indexes doc
    let newDoc : Document := { doc with data := data, updated_at := now }
    .ok { c with documents := mapInsert id newDoc c.documents,
                 indexes := updateIndexes idxs newDoc }

/-- Embedding of `Collection.Delete` (storage.go lines 170-183). -/
def Collection.delete (c : Collection) (id : String) : Except String Collection :=
  match mlookup id c.documents with
  | none => .error ("document not found")
  | some doc =>
    .ok { c with documents := mapErase id c.documents,
                 indexes := removeFromIndexes c.indexes doc }

/-- Index entries built by `CreateIndex` (storage.go lines 237-243): fold
over the current documents, recording each indexed value. -/
def buildIndexValues (f : String) (docs : List (String × Document)) : List (String × String) :=
  docs.foldl (fun acc p =>
    match mlookup f p.2.data with
    | some v => mapInsert (stringify v) p.2.id acc
    | none => acc) []

/-- Embedding of `Collection.CreateIndex` (storage.go lines 228-246). -/
def Collection.createIndex (c : Collection) (f : String) : Collection :=
  { c with indexes := mapInsert f { field := f, values := buildIndexValues f c.documents } c.indexes }

/-- Unindexed branch of `Collection.Find` (storage.go lines 200-209): the
linear scan keeping the documents whose field stringifies exactly to the
stringification of the query value. -/
def Collection.findScan (c : Collection) (field : String) (value : Value) : List Document :=
  c.documents.filterMap (fun p =>
    match mlookup field p.2.data with
    | some dv => if stringify dv = stringify value then some p.2 else none
    | none => none)

/-- Embedding of `Collection.Find` (storage.go lines 186-212): indexed
lookup when an index on the field exists, otherwise the linear scan. -/
def Collection.find (c : Collection) (field : String) (value : Value) : List Document :=
  match mlookup field c.indexes with
  | some idx =>
    match mlookup (stringify value) idx.values with
    | some docID =>
      match mlookup docID c.documents with
      | some doc => [doc]
      | none => []
    | none => []
  | none => c.findScan field value

/-- A mutation drawn from the four collection operations of claim C1. -/
inductive Op where
  | opInsert (id : String) (data : List (String × Value)) (now : Nat)
  | opUpdate (id : String) (data : List (String × Value)) (now : Nat)
  | opDelete (id : String)
  | opCreateIndex (f : String)

/-- Apply one operation; a failing operation returns before mutating, so
the collection is left unchanged (storage.go early returns). -/
def applyOp (c : Collection) (op : Op) : Collection :=
  match op with
  | .opInsert id data now =>
    match c.insert id data now with
    | .ok c2 => c2
    | .error _ => c
  | .opUpdate id data now =>
    match c.update id data now with
    | .ok c2 => c2
    | .error _ => c
  | .opDelete id =>
    match c.delete id with
    | .ok c2 => c2
    | .error _ => c
  | .opCreateIndex f => c.createIndex f

/-- The empty collection produced by `CreateCollection` (storage.go lines 103-107). -/
def emptyCollection (name : String) : Collection :=
  { name := name, documents := [], indexes := [] }

/-- Run a sequence of operations left to right. -/
def runOps (c : Collection) (ops : List Op) : Collection :=
  ops.foldl applyOp c

/-- One index entry is live: its id names a stored document whose value at
the indexed field stringifies to the entry key. -/
def entryLive (c : Collection) (f : String) (e : String × String) : Bool :=
  match mlookup e.2 c.documents with
  | none => false
  | some d =>
    match mlookup f d.data with
    | none => false
    | some v => stringify v == e.1

/-- The index-maintenance invariant of claim C1: every entry of every
index is live. -/
def indexInvariant (c : Collection) : Bool :=
  c.indexes.all (fun p => p.2.values.all (entryLive c p.1))

/-- The document-clearing step of `ImportData` when `overwrite_data` is
set (import/export file lines 123-128): the documents map is replaced by
a fresh empty map; the indexes are not touched. -/
def importOverwriteClear (c : Collection) : Collection :=
  { c with documents := [] }



/-- A successful lookup exhibits a member pair. -/
theorem mlookup_mem {α : Type} {k : String} {v : α} {m : List (String × α)}
    (h : mlookup k m = some v) : (k, v) ∈ m := by
  induction m with
  | nil => simp [mlookup] at h
  | cons p rest ih =>
    rw [mlookup] at h
    by_cases hp : p.1 = k
    · rw [if_pos hp] at h
      injection h with h
      obtain ⟨k1, v1⟩ := p
      simp only at hp h
      subst hp; subst h
      exact List.mem_cons_self _ _
    · rw [if_neg hp] at h
      exact List.mem_cons_of_mem _ (ih h)

/-- Members of an insert-or-replace are the new pair or old members. -/
theorem mem_mapInsert {α : Type} {k : String} {v : α} {p : String × α} :
    ∀ {m : List (String × α)}, p ∈ mapInsert k v m → p = (k, v) ∨ p ∈ m := by
  intro m
  induction m with
  | nil => intro h; simp [mapInsert] at h; exact Or.inl h
  | cons q rest ih =>
    intro h
    rw [mapInsert] at h
    by_cases hq : q.1 = k
    · rw [if_pos hq] at h
      rcases List.mem_cons.mp h with h1 | h1
      · exact Or.inl h1
      · exact Or.inr (List.mem_cons_of_mem _ h1)
    · rw [if_neg hq] at h
      rcases List.mem_cons.mp h with h1 | h1
      · exact Or.inr (h1 ▸ List.mem_cons_self _ _)
      · rcases ih h1 with h2 | h2
        · exact Or.inl h2
        · exact Or.inr (List.mem_cons_of_mem _ h2)

/-- Looking up the freshly written key returns the new value. -/
theorem mlookup_mapInsert_self {α : Type} (k : String) (v : α) :
    ∀ (m : List (String × α)), mlookup k (mapInsert k v m) = some v := by
  intro m
  induction m with
  | nil => simp [mapInsert, mlookup]
  | cons q rest ih =>
    rw [mapInsert]
    by_cases hq : q.1 = k
    · rw [if_pos hq, mlookup, if_pos rfl]
    · rw [if_neg hq, mlookup, if_neg hq]
      exact ih

/-- Writing one key leaves lookups of other keys unchanged. -/
theorem mlookup_mapInsert_ne {α : Type} {k1 k : String} (hne : k1 ≠ k) (v : α) :
    ∀ (m : List (String × α)), mlookup k1 (mapInsert k v m) = mlookup k1 m := by
  intro m
  have hkk : ¬ (k = k1) := fun h => hne h.symm
  induction m with
  | nil => simp [mapInsert, mlookup, hkk]
  | cons q rest ih =>
    rw [mapInsert]
    by_cases hq : q.1 = k
    · have hq1 : ¬ (q.1 = k1) := fun h => hne (hq.symm.trans h).symm
      simp only [if_pos hq, mlookup, hkk, hq1, if_false, if_neg hkk, if_neg hq1]
    · rw [if_neg hq, mlookup, mlookup]
      by_cases hq1 : q.1 = k1 <;> simp [hq1, ih]

/-- Membership after erasing a key. -/
theorem mem_mapErase {α : Type} {k : String} {p : String × α} {m : List (String × α)} :
    p ∈ mapErase k m ↔ p ∈ m ∧ p.1 ≠ k := by
  simp [mapErase, List.mem_filter]

/-- Unfolding lemma for erasing from a cons cell. -/
theorem mapErase_cons {α : Type} (k : String) (q : String × α) (rest : List (String × α)) :
    mapErase k (q :: rest) = if q.1 = k then mapErase k rest else q :: mapErase k rest := by
  by_cases hq : q.1 = k <;> simp [mapErase, List.filter_cons, hq]

/-- Erasing one key leaves lookups of other keys unchanged. -/
theorem mlookup_mapErase_ne {α : Type} {k1 k : String} (hne : k1 ≠ k) :
    ∀ (m : List (String × α)), mlookup k1 (mapErase k m) = mlookup k1 m := by
  intro m
  induction m with
  | nil => rfl
  | cons q rest ih =>
    rw [mapErase_cons]
    by_cases hq : q.1 = k
    · have hq1 : ¬ (q.1 = k1) := fun h => hne (h.symm.trans hq)
      rw [if_pos hq, ih, mlookup, if_neg hq1]
    · rw [if_neg hq, mlookup, mlookup]
      by_cases hq1 : q.1 = k1 <;> simp [hq1, ih]

/-- Keys reachable in an insert-or-replace. -/
theorem keys_mapInsert_subset {α : Type} {k x : String} {v : α} {m : List (String × α)}
    (h : x ∈ (mapInsert k v m).map Prod.fst) : x = k ∨ x ∈ m.map Prod.fst := by
  rcases List.mem_map.mp h with ⟨p, hp, rfl⟩
  rcases mem_mapInsert hp with h1 | h1
  · exact Or.inl (by rw [h1])
  · exact Or.inr (List.mem_map_of_mem _ h1)

/-- Insert-or-replace preserves distinctness of keys. -/
theorem nodupKeys_mapInsert {α : Type} (k : String) (v : α) :
    ∀ {m : List (String × α)}, (m.map Prod.fst).Nodup →
      ((mapInsert k v m).map Prod.fst).Nodup := by
  intro m
  induction m with
  | nil => intro _; simp [mapInsert]
  | cons q rest ih =>
    intro h
    rw [List.map_cons, List.nodup_cons] at h
    rw [mapInsert]
    by_cases hq : q.1 = k
    · rw [if_pos hq]
      rw [List.map_cons, List.nodup_cons]
      exact ⟨by rw [← hq]; exact h.1, h.2⟩
    · rw [if_neg hq]
      rw [List.map_cons, List.nodup_cons]
      refine ⟨?_, ih h.2⟩
      intro hx
      rcases keys_mapInsert_subset hx with h1 | h1
      · exact hq h1
      · exact h.1 h1

/-- Erasing a key preserves distinctness of keys. -/
theorem nodupKeys_mapErase {α : Type} (k : String) {m : List (String × α)}
    (h : (m.map Prod.fst).Nodup) : ((mapErase k m).map Prod.fst).Nodup :=
  ((List.filter_sublist m).map Prod.fst).nodup h

/-- With distinct keys, membership determines the lookup result. -/
theorem mlookup_of_mem_nodup {α : Type} {k : String} {v : α} :
    ∀ {m : List (String × α)}, (m.map Prod.fst).Nodup → (k, v) ∈ m →
      mlookup k m = some v := by
  intro m
  induction m with
  | nil => intro _ h; simp at h
  | cons q rest ih =>
    intro hnd hmem
    rw [List.map_cons, List.nodup_cons] at hnd
    rcases List.mem_cons.mp hmem with h1 | h1
    · rw [← h1, mlookup, if_pos rfl]
    · have hq : ¬ (q.1 = k) := by
        intro hq
        exact hnd.1 (hq ▸ List.mem_map_of_mem Prod.fst h1)
      rw [mlookup, if_neg hq]
      exact ih hnd.2 h1

/-- Lookup through a key-preserving map of the values. -/
theorem mlookup_map_keyed {α β : Type} (t : String → α → β) (k : String) :
    ∀ (m : List (String × α)),
      mlookup k (m.map (fun p => (p.1, t p.1 p.2))) = (mlookup k m).map (t k) := by
  intro m
  induction m with
  | nil => rfl
  | cons q rest ih =>
    rw [List.map_cons, mlookup, mlookup]
    by_cases hq : q.1 = k
    · simp [hq]
    · rw [if_neg hq, if_neg hq, ih]

/-- One entry is sound with respect to a documents map: its id names a
stored document whose field value stringifies to the entry key. -/
def EntryOK (docs : List (String × Document)) (f : String) (e : String × String) : Prop :=
  ∃ d, mlookup e.2 docs = some d ∧ ∃ v, mlookup f d.data = some v ∧ stringify v = e.1

/-- Propositional form of `indexInvariant`. -/
def IndexOK (c : Collection) : Prop :=
  ∀ p ∈ c.indexes, ∀ e ∈ p.2.values, EntryOK c.documents p.1 e

/-- Structural well-formedness maintained by the collection operations:
document keys are distinct and each stored document records its own key
as its id. -/
def CollWF (c : Collection) : Prop :=
  ((c.documents.map Prod.fst).Nodup) ∧ ∀ p ∈ c.documents, p.2.id = p.1

/-- The executable invariant agrees with its propositional form on each
entry. -/
theorem entryLive_eq_true_iff (c : Collection) (f : String) (e : String × String) :
    entryLive c f e = true ↔ EntryOK c.documents f e := by
  rcases e with ⟨ek, eid⟩
  unfold entryLive EntryOK
  rcases hd : mlookup eid c.documents with _ | d
  · simp [hd]
  · rcases hv : mlookup f d.data with _ | v
    · simp [hd, hv]
    · simp [hd, hv, beq_iff_eq]

/-- The executable invariant agrees with its propositional form. -/
theorem indexInvariant_iff (c : Collection) : indexInvariant c = true ↔ IndexOK c := by
  unfold indexInvariant IndexOK
  rw [List.all_eq_true]
  constructor
  · intro h p hp e he
    exact (entryLive_eq_true_iff c p.1 e).mp (List.all_eq_true.mp (h p hp) e he)
  · intro h p hp
    rw [List.all_eq_true]
    intro e he
    exact (entryLive_eq_true_iff c p.1 e).mpr (h p hp e he)

/-- Inversion of a successful Insert: the id was fresh and the new state
is the stored document plus the refreshed indexes. -/
theorem insert_ok_inv {c : Collection} {id : String} {data : List (String × Value)}
    {now : Nat} {c2 : Collection} (h : c.insert id data now = .ok c2) :
    mlookup id c.documents = none ∧
    c2 = { c with
            documents := mapInsert id ⟨id, data, now, now⟩ c.documents,
            indexes := updateIndexes c.indexes ⟨id, data, now, now⟩ } := by
  unfold Collection.insert at h
  split at h
  · simp at h
  · next hl =>
    simp only [Except.ok.injEq] at h
    exact ⟨hl, h.symm⟩

/-- Inversion of a successful Update. -/
theorem update_ok_inv {c : Collection} {id : String} {data : List (String × Value)}
    {now : Nat} {c2 : Collection} (h : c.update id data now = .ok c2) :
    ∃ doc, mlookup id c.documents = some doc ∧
      c2 = { c with
              documents := mapInsert id { doc with data := data, updated_at := now } c.documents,
              indexes := updateIndexes (removeFromIndexes c.indexes doc)
                           { doc with data := data, updated_at := now } } := by
  unfold Collection.update at h
  split at h
  · simp at h
  · next doc hl =>
    simp only [Except.ok.injEq] at h
    exact ⟨doc, hl, h.symm⟩

/-- Inversion of a successful Delete. -/
theorem delete_ok_inv {c : Collection} {id : String} {c2 : Collection}
    (h : c.delete id = .ok c2) :
    ∃ doc, mlookup id c.documents = some doc ∧
      c2 = { c with
              documents := mapErase id c.documents,
              indexes := removeFromIndexes c.indexes doc } := by
  unfold Collection.delete at h
  split at h
  · simp at h
  · next doc hl =>
    simp only [Except.ok.injEq] at h
    exact ⟨doc, hl, h.symm⟩

/-- Entries surviving `removeFromIndexes` on one index are old sound
entries pointing to a different id than the removed document. -/
theorem entry_survives_remove {docs : List (String × Document)} {doc : Document}
    {id : String} (hl : mlookup id docs = some doc) {f : String} {idx : Index}
    (hold : ∀ e1 ∈ idx.values, EntryOK docs f e1)
    {e : String × String} (he : e ∈ (applyIdxRemove doc f idx).values) :
    EntryOK docs f e ∧ e.2 ≠ id := by
  rcases hv : mlookup f doc.data with _ | ov
  · have he2 : e ∈ idx.values := by simpa [applyIdxRemove, hv] using he
    have hOK := hold e he2
    refine ⟨hOK, ?_⟩
    rcases hOK with ⟨d, hd, v1, hv1, _⟩
    intro heq
    rw [heq, hl] at hd
    injection hd with hd
    rw [← hd, hv] at hv1
    exact Option.noConfusion hv1
  · have he2 : e ∈ mapErase (stringify ov) idx.values := by
      simpa [applyIdxRemove, hv] using he
    rcases mem_mapErase.mp he2 with ⟨hmem, hne1⟩
    have hOK := hold e hmem
    refine ⟨hOK, ?_⟩
    rcases hOK with ⟨d, hd, v1, hv1, hs⟩
    intro heq
    rw [heq, hl] at hd
    injection hd with hd
    rw [← hd, hv] at hv1
    injection hv1 with hv1
    rw [← hv1] at hs
    exact hne1 hs.symm

/-- Insert preserves well-formedness and the index invariant. -/
theorem insert_preserves {c : Collection} {id : String} {data : List (String × Value)}
    {now : Nat} {c2 : Collection} (hwf : CollWF c) (hok : IndexOK c)
    (h : c.insert id data now = .ok c2) : CollWF c2 ∧ IndexOK c2 := by
  obtain ⟨hl, rfl⟩ := insert_ok_inv h
  constructor
  · constructor
    · exact nodupKeys_mapInsert id _ hwf.1
    · intro p hp
      rcases mem_mapInsert hp with h1 | h1
      · rw [h1]
      · exact hwf.2 p h1
  · intro p2 hp2 e he
    rcases List.mem_map.mp hp2 with ⟨p, hp, rfl⟩
    have oldok : ∀ e1 ∈ p.2.values,
        EntryOK (mapInsert id (⟨id, data, now, now⟩ : Document) c.documents) p.1 e1 := by
      intro e1 he1
      rcases hok p hp e1 he1 with ⟨d, hd, v1, hv1, hs⟩
      have hne : e1.2 ≠ id := by
        intro heq; rw [heq, hl] at hd; exact Option.noConfusion hd
      exact ⟨d, by rw [mlookup_mapInsert_ne hne]; exact hd, v1, hv1, hs⟩
    rcases hv : mlookup p.1 data with _ | v
    · have he2 : e ∈ p.2.values := by simpa [applyIdxUpdate, hv] using he
      exact oldok e he2
    · have he2 : e ∈ mapInsert (stringify v) id p.2.values := by
        simpa [applyIdxUpdate, hv] using he
      rcases mem_mapInsert he2 with h1 | h1
      · refine ⟨⟨id, data, now, now⟩, ?_, v, ?_, ?_⟩
        · rw [h1]
          exact mlookup_mapInsert_self id _ c.documents
        · exact hv
        · rw [h1]
      · exact oldok e h1

/-- Delete preserves well-formedness and the index invariant. -/
theorem delete_preserves {c : Collection} {id : String} {c2 : Collection}
    (hwf : CollWF c) (hok : IndexOK c) (h : c.delete id = .ok c2) :
    CollWF c2 ∧ IndexOK c2 := by
  obtain ⟨doc, hl, rfl⟩ := delete_ok_inv h
  constructor
  · constructor
    · exact nodupKeys_mapErase id hwf.1
    · intro p hp
      exact hwf.2 p (mem_mapErase.mp hp).1
  · intro p2 hp2 e he
    rcases List.mem_map.mp hp2 with ⟨p, hp, rfl⟩
    have hsur := entry_survives_remove hl (fun e1 he1 => hok p hp e1 he1) he
    rcases hsur.1 with ⟨d, hd, v1, hv1, hs⟩
    exact ⟨d, by rw [mlookup_mapErase_ne hsur.2]; exact hd, v1, hv1, hs⟩

/-- Update preserves well-formedness and the index invariant. -/
theorem update_preserves {c : Collection} {id : String} {data : List (String × Value)}
    {now : Nat} {c2 : Collection} (hwf : CollWF c) (hok : IndexOK c)
    (h : c.update id data now = .ok c2) : CollWF c2 ∧ IndexOK c2 := by
  obtain ⟨doc, hl, rfl⟩ := update_ok_inv h
  have hdocid : doc.id = id := hwf.2 (id, doc) (mlookup_mem hl)
  constructor
  · constructor
    · exact nodupKeys_mapInsert id _ hwf.1
    · intro p hp
      rcases mem_mapInsert hp with h1 | h1
      · rw [h1]; exact hdocid
      · exact hwf.2 p h1
  · intro p2 hp2 e he
    rcases List.mem_map.mp hp2 with ⟨q, hq, rfl⟩
    rcases List.mem_map.mp hq with ⟨p, hp, rfl⟩
    have hrem : ∀ e1 ∈ (applyIdxRemove doc p.1 p.2).values,
        EntryOK (mapInsert id ({ doc with data := data, updated_at := now } : Document)
          c.documents) p.1 e1 := by
      intro e1 he1
      have hsur := entry_survives_remove hl (fun e2 he2 => hok p hp e2 he2) he1
      rcases hsur.1 with ⟨d, hd, v1, hv1, hs⟩
      exact ⟨d, by rw [mlookup_mapInsert_ne hsur.2]; exact hd, v1, hv1, hs⟩
    rcases hv : mlookup p.1 data with _ | v
    · have he2 : e ∈ (applyIdxRemove doc p.1 p.2).values := by
        simpa [applyIdxUpdate, hv] using he
      exact hrem e he2
    · have he2 : e ∈ mapInsert (stringify v) doc.id (applyIdxRemove doc p.1 p.2).values := by
        simpa [applyIdxUpdate, hv] using he
      rcases mem_mapInsert he2 with h1 | h1
      · refine ⟨{ doc with data := data, updated_at := now }, ?_, v, ?_, ?_⟩
        · rw [h1]
          simp only [hdocid]
          exact mlookup_mapInsert_self id _ c.documents
        · exact hv
        · rw [h1]
      · exact hrem e h1

/-- Every entry produced by the CreateIndex fold is sound. -/
theorem buildIndexValues_fold_sound {docs : List (String × Document)}
    (hnd : (docs.map Prod.fst).Nodup) (hid : ∀ p ∈ docs, p.2.id = p.1) (f : String) :
    ∀ (L : List (String × Document)) (acc : List (String × String)),
      (∀ q ∈ L, q ∈ docs) → (∀ e1 ∈ acc, EntryOK docs f e1) →
      ∀ e ∈ L.foldl (fun acc2 p =>
          match mlookup f p.2.data with
          | some v => mapInsert (stringify v) p.2.id acc2
          | none => acc2) acc, EntryOK docs f e := by
  intro L
  induction L with
  | nil => intro acc _ hacc e he; exact hacc e he
  | cons q L ih =>
    intro acc hsub hacc e he
    rw [List.foldl_cons] at he
    refine ih _ (fun q1 hq1 => hsub q1 (List.mem_cons_of_mem _ hq1)) ?_ e he
    intro e1 he1
    rcases hv : mlookup f q.2.data with _ | v
    · rw [hv] at he1
      exact hacc e1 he1
    · rw [hv] at he1
      rcases mem_mapInsert he1 with h1 | h1
      · refine ⟨q.2, ?_, v, hv, by rw [h1]⟩
        have hqd : q ∈ docs := hsub q (List.mem_cons_self _ _)
        have : mlookup q.1 docs = some q.2 := mlookup_of_mem_nodup hnd (by
          have : (q.1, q.2) = q := rfl
          rw [this]; exact hqd)
        rw [h1]
        simpa [hid q hqd] using this
      · exact hacc e1 h1

/-- CreateIndex preserves well-formedness and the index invariant. -/
theorem createIndex_preserves {c : Collection} (f : String)
    (hwf : CollWF c) (hok : IndexOK c) :
    CollWF (c.createIndex f) ∧ IndexOK (c.createIndex f) := by
  refine ⟨hwf, ?_⟩
  intro p2 hp2 e he
  rcases mem_mapInsert hp2 with h1 | h1
  · rw [h1] at he ⊢
    exact buildIndexValues_fold_sound hwf.1 hwf.2 f c.documents [] (fun q hq => hq)
      (fun e1 he1 => absurd he1 (List.not_mem_nil e1)) e he
  · exact hok p2 h1 e he

/-- One operation preserves well-formedness and the index invariant
(failing operations leave the collection unchanged). -/
theorem applyOp_preserves {c : Collection} (op : Op) (hwf : CollWF c) (hok : IndexOK c) :
    CollWF (applyOp c op) ∧ IndexOK (applyOp c op) := by
  cases op with
  | opInsert id data now =>
    cases h : c.insert id data now with
    | error msg => simp only [applyOp, h]; exact ⟨hwf, hok⟩
    | ok c2 => simp only [applyOp, h]; exact insert_preserves hwf hok h
  | opUpdate id data now =>
    cases h : c.update id data now with
    | error msg => simp only [applyOp, h]; exact ⟨hwf, hok⟩
    | ok c2 => simp only [applyOp, h]; exact update_preserves hwf hok h
  | opDelete id =>
    cases h : c.delete id with
    | error msg => simp only [applyOp, h]; exact ⟨hwf, hok⟩
    | ok c2 => simp only [applyOp, h]; exact delete_preserves hwf hok h
  | opCreateIndex f =>
    simp only [applyOp]
    exact createIndex_preserves f hwf hok

/-- Any operation sequence preserves well-formedness and the invariant. -/
theorem runOps_preserves (ops : List Op) :
    ∀ {c : Collection}, CollWF c → IndexOK c →
      CollWF (runOps c ops) ∧ IndexOK (runOps c ops) := by
  induction ops with
  | nil => intro c hwf hok; exact ⟨hwf, hok⟩
  | cons op ops ih =>
    intro c hwf hok
    have h1 := applyOp_preserves op hwf hok
    have h2 := ih h1.1 h1.2
    simpa [runOps, List.foldl_cons] using h2

/-- C1: after any finite sequence of Insert/Update/Delete/CreateIndex
operations applied to an initially empty collection, every entry `(k, id)`
of every index on field `f` names a stored document id whose value at `f`
stringifies to `k` — the executable invariant `indexInvariant` holds. -/
theorem C1_index_invariant_after_ops (name : String) (ops : List Op) :
    indexInvariant (runOps (emptyCollection name) ops) = true := by
  have hwf : CollWF (emptyCollection name) := by
    constructor
    · simp [emptyCollection]
    · intro p hp; simp [emptyCollection] at hp
  have hok : IndexOK (emptyCollection name) := by
    intro p hp; simp [emptyCollection] at hp
  exact (indexInvariant_iff _).mpr (runOps_preserves ops hwf hok).2

/-- Looking up the erased key yields nothing. -/
theorem mlookup_mapErase_self {α : Type} (k : String) :
    ∀ (m : List (String × α)), mlookup k (mapErase k m) = none := by
  intro m
  induction m with
  | nil => rfl
  | cons q rest ih =>
    rw [mapErase_cons]
    by_cases hq : q.1 = k
    · rw [if_pos hq]; exact ih
    · rw [if_neg hq, mlookup, if_neg hq]; exact ih

/-- Concrete two-document collection with an index on `f` whose single
entry maps the shared stringified value to the later document `d2`. -/
def C2c0 : Collection :=
  { name := ("t"),
    documents := [(("d1"), { id := ("d1"), data := [(("f"), Value.vInt 1)],
                             created_at := 0, updated_at := 0 }),
                  (("d2"), { id := ("d2"), data := [(("f"), Value.vInt 1)],
                             created_at := 0, updated_at := 0 })],
    indexes := [(("f"), { field := ("f"), values := [(("1"), ("d2"))] })] }

/-- The collection produced by updating `d1` of `C2c0` to `f = 2`. -/
def C2c1 : Collection :=
  { name := ("t"),
    documents := [(("d1"), { id := ("d1"), data := [(("f"), Value.vInt 2)],
                             created_at := 0, updated_at := 1 }),
                  (("d2"), { id := ("d2"), data := [(("f"), Value.vInt 1)],
                             created_at := 0, updated_at := 0 })],
    indexes := [(("f"), { field := ("f"), values := [(("2"), ("d1"))] })] }

/-- C2 counterexample: in `C2c0` (a state satisfying the index invariant)
the index entry under key `"1"` maps to `d2`, not to `d1`; yet
`Update("d1", {f: 2})` deletes it — the result has no entry under `"1"` at
all, where the claim demands that an entry mapping to a different
document's id be left unchanged (it would have to still be `some "d2"`). -/
theorem C2_counterexample :
    indexInvariant C2c0 = true ∧
    C2c0.update ("d1") [(("f"), Value.vInt 2)] 1 = Except.ok C2c1 ∧
    Option.map (fun idx => mlookup ("1") idx.values) (mlookup ("f") C2c1.indexes) =
      some none := by
  refine ⟨rfl, ?_, rfl⟩
  rfl

/-- C2 (amended): Update(id, data) deletes the index entry keyed by the
stringification of the document's old `data[f]` unconditionally — whatever
document id that entry currently maps to — so after an Update whose new
value stringifies differently, no entry remains under the old key
(`removeFromIndexes`, storage.go lines 260-268, deletes by key without
comparing the stored id). -/
theorem C2_update_removes_old_key_unconditionally
    {c : Collection} {id : String} {data : List (String × Value)} {now : Nat}
    {doc : Document} {f : String} {idx : Index} {ov : Value} {c2 : Collection}
    (hdoc : mlookup id c.documents = some doc)
    (hov : mlookup f doc.data = some ov)
    (hidx : mlookup f c.indexes = some idx)
    (h : c.update id data now = .ok c2)
    (hnew : ∀ nv, mlookup f data = some nv → stringify nv ≠ stringify ov) :
    ∃ idx2, mlookup f c2.indexes = some idx2 ∧
      mlookup (stringify ov) idx2.values = none := by
  obtain ⟨doc1, hl, rfl⟩ := update_ok_inv h
  rw [hdoc] at hl
  injection hl with hl
  subst hl
  have hrem : mlookup f (removeFromIndexes c.indexes doc) =
      some (applyIdxRemove doc f idx) := by
    rw [removeFromIndexes, mlookup_map_keyed (applyIdxRemove doc) f, hidx]
    rfl
  have hupd : mlookup f (updateIndexes (removeFromIndexes c.indexes doc)
      { doc with data := data, updated_at := now }) =
      some (applyIdxUpdate { doc with data := data, updated_at := now } f
        (applyIdxRemove doc f idx)) := by
    rw [updateIndexes,
      mlookup_map_keyed (applyIdxUpdate { doc with data := data, updated_at := now }) f,
      hrem]
    rfl
  refine ⟨_, hupd, ?_⟩
  unfold applyIdxUpdate applyIdxRemove
  rw [hov]
  rcases hnv : mlookup f data with _ | nv
  · simp only [hnv]
    exact mlookup_mapErase_self (stringify ov) idx.values
  · simp only [hnv]
    rw [mlookup_mapInsert_ne (Ne.symm (hnew nv hnv))]
    exact mlookup_mapErase_self (stringify ov) idx.values

/-- Witness for the amended C2 statement at the concrete state `C2c0`. -/
theorem C2_update_removes_old_key_unconditionally_witness :
    ∃ idx2, mlookup ("f") C2c1.indexes = some idx2 ∧
      mlookup (stringify (Value.vInt 1)) idx2.values = none :=
  @C2_update_removes_old_key_unconditionally
    C2c0 ("d1") [(("f"), Value.vInt 2)] 1
    { id := ("d1"), data := [(("f"), Value.vInt 1)], created_at := 0, updated_at := 0 }
    ("f")
    { field := ("f"), values := [(("1"), ("d2"))] }
    (Value.vInt 1) C2c1
    rfl rfl rfl rfl
    (fun nv hnv => by
      injection hnv with hnv
      rw [← hnv]
      decide)

/-- Concrete one-document collection with a sound index on `f`. -/
def C3c0 : Collection :=
  { name := ("t"),
    documents := [(("a"), { id := ("a"), data := [(("f"), Value.vInt 1)],
                            created_at := 0, updated_at := 0 })],
    indexes := [(("f"), { field := ("f"), values := [(("1"), ("a"))] })] }

/-- C3 counterexample: `C3c0` satisfies the index invariant, but after the
`overwrite_data` clearing step of ImportData its index entry `("1","a")`
points to a removed document — the invariant is violated, where the claim
says every index entry still points to an existing document. -/
theorem C3_counterexample :
    indexInvariant C3c0 = true ∧
    indexInvariant (importOverwriteClear C3c0) = false :=
  ⟨rfl, rfl⟩

/-- C3 (amended): the `overwrite_data` step of ImportData replaces the
documents map with an empty one and leaves every index exactly as it was,
so index entries of the pre-import collection survive as stale entries
pointing to removed documents (import/export file lines 123-128 touch
only `collection.Documents`). -/
theorem C3_overwrite_clears_documents_keeps_indexes (c : Collection) :
    (importOverwriteClear c).documents = [] ∧
    (importOverwriteClear c).indexes = c.indexes :=
  ⟨rfl, rfl⟩

unseal Rat.mul Rat.add Rat.inv Rat.sub Rat.ofScientific

/-- C4: Compare stringifies both values; when both stringifications parse
as numbers the result is the three-way numeric comparison, otherwise the
three-way lexicographic comparison of the stringifications; in particular
the string "10" and the integer 10 compare equal. -/
theorem C4_compareValues_spec (a b : Value) :
    (∀ x y, goParseFloat (stringify a) = some x → goParseFloat (stringify b) = some y →
      compareValues a b = (if x < y then -1 else if y < x then 1 else 0)) ∧
    ((goParseFloat (stringify a) = none ∨ goParseFloat (stringify b) = none) →
      compareValues a b = strCmpInt (stringify a) (stringify b)) ∧
    compareValues (Value.vStr ("10")) (Value.vInt 10) = 0 := by
  refine ⟨?_, ?_, by decide⟩
  · intro x y hx hy
    simp only [compareValues, hx, hy]
  · intro h
    rcases h with h | h
    · rcases h2 : goParseFloat (stringify b) with _ | y <;>
        simp only [compareValues, h, h2]
    · rcases h2 : goParseFloat (stringify a) with _ | x <;>
        simp only [compareValues, h, h2]

/-- Witness for C4 at a pair of concrete values: "abc" does not parse, so
the comparison with 12 is lexicographic. -/
theorem C4_compareValues_spec_witness :
    compareValues (Value.vStr ("abc")) (Value.vInt 12) =
      strCmpInt (stringify (Value.vStr ("abc"))) (stringify (Value.vInt 12)) :=
  (C4_compareValues_spec (Value.vStr ("abc")) (Value.vInt 12)).2.1 (Or.inl (by decide))

/-- C9: Insert fails (with the duplicate-id error) exactly when the id is
already present, leaving the collection unmodified; on success the new
document with both timestamps set to the current clock is stored and each
existing index on a field present in the data gains/overwrites the entry
at the stringified value, mapping it to the new id. -/
theorem C9_insert_spec (c : Collection) (id : String) (data : List (String × Value))
    (now : Nat) :
    (∀ d, mlookup id c.documents = some d →
      c.insert id data now = .error ("document already exists")) ∧
    (mlookup id c.documents = none →
      c.insert id data now = .ok
        { c with documents := mapInsert id ⟨id, data, now, now⟩ c.documents,
                 indexes := updateIndexes c.indexes ⟨id, data, now, now⟩ } ∧
      ∀ f idx, mlookup f c.indexes = some idx →
        mlookup f (updateIndexes c.indexes (⟨id, data, now, now⟩ : Document)) =
          some (match mlookup f data with
                | some v => { field := idx.field,
                              values := mapInsert (stringify v) id idx.values }
                | none => idx)) := by
  constructor
  · intro d hd
    unfold Collection.insert
    rw [hd]
  · intro hl
    constructor
    · unfold Collection.insert
      rw [hl]
    · intro f idx hidx
      rw [updateIndexes, mlookup_map_keyed (applyIdxUpdate ⟨id, data, now, now⟩) f, hidx]
      rcases hv : mlookup f data with _ | v <;> simp [applyIdxUpdate, hv]

/-- Concrete collection already holding a document with id "a". -/
def C9c0 : Collection :=
  { name := ("t"),
    documents := [(("a"), { id := ("a"), data := [], created_at := 0, updated_at := 0 })],
    indexes := [] }

/-- Expected result of inserting "a" into an empty collection. -/
def C9c1 : Collection :=
  { name := ("t"),
    documents := [(("a"), { id := ("a"), data := [(("x"), Value.vInt 1)],
                            created_at := 0, updated_at := 0 })],
    indexes := [] }

/-- Witness for C9: the duplicate insert errs and the fresh insert stores
the document. -/
theorem C9_insert_spec_witness :
    C9c0.insert ("a") [(("x"), Value.vInt 1)] 0 =
      Except.error ("document already exists") ∧
    (emptyCollection ("t")).insert ("a") [(("x"), Value.vInt 1)] 0 = Except.ok C9c1 :=
  ⟨(C9_insert_spec C9c0 ("a") [(("x"), Value.vInt 1)] 0).1 _ rfl,
   ((C9_insert_spec (emptyCollection ("t")) ("a") [(("x"), Value.vInt 1)] 0).2 rfl).1⟩

/-- Concrete unindexed collection holding one document with `f = "1e1"`. -/
def C10c0 : Collection :=
  { name := ("t"),
    documents := [(("a"), { id := ("a"), data := [(("f"), Value.vStr ("1e1"))],
                            created_at := 0, updated_at := 0 })],
    indexes := [] }

/-- C10: without an index, Find is the linear scan returning exactly the
documents whose value at the field stringifies character for character to
the stringification of the query value; no numeric coercion is applied,
so the document value "1e1" does not match the query value 10 even though
`compareValues` reports them equal. -/
theorem C10_find_scan_spec (c : Collection) (f : String) (v : Value) :
    (mlookup f c.indexes = none → c.find f v = c.findScan f v) ∧
    (∀ d, d ∈ c.findScan f v ↔
      ∃ k, (k, d) ∈ c.documents ∧
        ∃ dv, mlookup f d.data = some dv ∧ stringify dv = stringify v) ∧
    (compareValues (Value.vStr ("1e1")) (Value.vInt 10) = 0 ∧
      C10c0.findScan ("f") (Value.vInt 10) = []) := by
  refine ⟨?_, ?_, by decide, by rfl⟩
  · intro h
    unfold Collection.find
    rw [h]
  · intro d
    unfold Collection.findScan
    rw [List.mem_filterMap]
    constructor
    · rintro ⟨p, hp, hg⟩
      rcases hdv : mlookup f p.2.data with _ | dv
      · simp only [hdv] at hg
        exact Option.noConfusion hg
      · simp only [hdv] at hg
        by_cases hs : stringify dv = stringify v
        · rw [if_pos hs] at hg
          injection hg with hg
          subst hg
          exact ⟨p.1, hp, dv, hdv, hs⟩
        · rw [if_neg hs] at hg
          exact Option.noConfusion hg
    · rintro ⟨k, hk, dv, hdv, hs⟩
      refine ⟨(k, d), hk, ?_⟩
      simp only [hdv]
      rw [if_pos hs]

/-- Witness for C10 at the concrete collection: the no-index branch is the
scan, and the scan rejects the numerically-equal but textually-different
value. -/
theorem C10_find_scan_spec_witness :
    C10c0.find ("f") (Value.vInt 10) = C10c0.findScan ("f") (Value.vInt 10) ∧
    C10c0.findScan ("f") (Value.vInt 10) = [] :=
  ⟨(C10_find_scan_spec C10c0 ("f") (Value.vInt 10)).1 rfl,
   (C10_find_scan_spec C10c0 ("f") (Value.vInt 10)).2.2.2⟩

/-- C5: on a collection satisfying the index invariant (the data-model
invariant every reachable collection satisfies, see C1), an indexed Find
returns at most one document, and every document it returns would also be
returned by the unindexed linear scan under the stringification rule. -/
theorem C5_find_indexed_subset {c : Collection} {f : String} {v : Value} {idx : Index}
    (hinv : indexInvariant c = true) (hidx : mlookup f c.indexes = some idx) :
    (c.find f v).length ≤ 1 ∧ ∀ d ∈ c.find f v, d ∈ c.findScan f v := by
  have hok : IndexOK c := (indexInvariant_iff c).mp hinv
  have hfind : c.find f v =
      (match mlookup (stringify v) idx.values with
        | some docID =>
          (match mlookup docID c.documents with
            | some doc => [doc]
            | none => [])
        | none => []) := by
    unfold Collection.find
    rw [hidx]
  rcases he : mlookup (stringify v) idx.values with _ | docID
  · simp only [he] at hfind
    rw [hfind]
    exact ⟨by simp, by simp⟩
  · rcases hd : mlookup docID c.documents with _ | doc
    · simp only [he, hd] at hfind
      rw [hfind]
      exact ⟨by simp, by simp⟩
    · simp only [he, hd] at hfind
      rw [hfind]
      refine ⟨by simp, ?_⟩
      intro d hdmem
      rw [List.mem_singleton] at hdmem
      subst hdmem
      have hentry := hok (f, idx) (mlookup_mem hidx) (stringify v, docID) (mlookup_mem he)
      rcases hentry with ⟨d2, hd2, dv, hdv, hs⟩
      rw [hd] at hd2
      injection hd2 with hd2
      subst hd2
      have hdv2 : mlookup f d.data = some dv := hdv
      have hs2 : stringify dv = stringify v := hs
      unfold Collection.findScan
      rw [List.mem_filterMap]
      refine ⟨(docID, d), mlookup_mem hd, ?_⟩
      show (match mlookup f d.data with
            | some dv1 => if stringify dv1 = stringify v then some d else none
            | none => none) = some d
      simp only [hdv2]
      rw [if_pos hs2]

/-- Concrete collection with a sound index on `f` for the C5 witness. -/
def C5c0 : Collection :=
  { name := ("t"),
    documents := [(("a"), { id := ("a"), data := [(("f"), Value.vInt 3)],
                            created_at := 0, updated_at := 0 })],
    indexes := [(("f"), { field := ("f"), values := [(("3"), ("a"))] })] }

/-- Witness for C5 at the concrete indexed collection. -/
theorem C5_find_indexed_subset_witness :
    (C5c0.find ("f") (Value.vInt 3)).length ≤ 1 ∧
    ∀ d ∈ C5c0.find ("f") (Value.vInt 3), d ∈ C5c0.findScan ("f") (Value.vInt 3) :=
  @C5_find_indexed_subset C5c0 ("f") (Value.vInt 3)
    { field := ("f"), values := [(("3"), ("a"))] } rfl rfl

/-- One character of a pattern against one character of text: `.` matches
anything, otherwise literal equality.  Part of a simplified
regular-expression matcher standing in for Go `regexp` (literals, `.`,
postfix `*`, anchors); pattern-compilation failure is not modelled.  No
claim depends on regex semantics. -/
def matchChar (p c : Char) : Bool :=
  (p == '.') || (p == c)

/-- Matcher for a pattern against a prefix position of the text (the
classic recursive matcher).  Simplified model of Go `regexp` matching. -/
def matchHere : List Char → List Char → Bool
  | [], _ => true
  | ['$'], [] => true
  | _ :: '*' :: pr, [] => matchHere pr []
  | x :: '*' :: pr, c :: s =>
    matchHere pr (c :: s) || (matchChar x c && matchHere (x :: '*' :: pr) s)
  | x :: pr, c :: s => matchChar x c && matchHere pr s
  | _ :: _, [] => false
termination_by p s => (s.length, p.length)

/-- Whether the pattern matches anywhere in the string (Go
`regexp.MatchString`, simplified model). -/
def regexMatch (pat s : String) : Bool :=
  match pat.data with
  | '^' :: pr => matchHere pr s.data
  | p => (List.range (s.data.length + 1)).any (fun i => matchHere p (s.data.drop i))

/-- Embedding of `getValueType` (query file): the type tag of a value. -/
def getValueType : Value → String
  | .vNull => ("null")
  | .vStr _ => ("string")
  | .vInt _ => ("int")
  | .vBool _ => ("bool")
  | .vArr _ => ("array")

/-- Embedding of `getValueSize` (query file): string length, array
length, otherwise zero. -/
def getValueSize : Value → Nat
  | .vStr s => s.length
  | .vArr l => l.length
  | _ => 0

/-- Embedding of `Filter` (query file): field, operator and comparand. -/
structure Filter where
  field : String
  operator : String
  value : Value

/-- Embedding of `matchesFilter` (query file lines 849-946): evaluate one
filter against a document; Go type assertions on the filter value become
matches on the `Value` constructors. -/
def matchesFilter (doc : Document) (flt : Filter) : Bool :=
  match flt.operator with
  | "$eq" =>
    match mlookup flt.field doc.data with
    | some v => compareValues v flt.value == 0
    | none => false
  | "$ne" =>
    match mlookup flt.field doc.data with
    | some v => !(compareValues v flt.value == 0)
    | none => true
  | "$gt" =>
    match mlookup flt.field doc.data with
    | some v => decide (0 < compareValues v flt.value)
    | none => false
  | "$gte" =>
    match mlookup flt.field doc.data with
    | some v => decide (0 ≤ compareValues v flt.value)
    | none => false
  | "$lt" =>
    match mlookup flt.field doc.data with
    | some v => decide (compareValues v flt.value < 0)
    | none => false
  | "$lte" =>
    match mlookup flt.field doc.data with
    | some v => decide (compareValues v flt.value ≤ 0)
    | none => false
  | "$in" =>
    match mlookup flt.field doc.data with
    | some v =>
      match flt.value with
      | .vArr vs => vs.any (fun w => compareValues v w == 0)
      | _ => false
    | none => false
  | "$nin" =>
    match mlookup flt.field doc.data with
    | some v =>
      match flt.value with
      | .vArr vs => vs.all (fun w => !(compareValues v w == 0))
      | _ => true
    | none => true
  | "$regex" =>
    match mlookup flt.field doc.data with
    | some v =>
      match flt.value with
      | .vStr pat => regexMatch pat (stringify v)
      | _ => false
    | none => false
  | "$exists" =>
    match flt.value with
    | .vBool b => (mlookup flt.field doc.data).isSome == b
    | _ => false
  | "$type" =>
    match mlookup flt.field doc.data with
    | some v =>
      match flt.value with
      | .vStr t => getValueType v == t
      | _ => false
    | none => false
  | "$size" =>
    match mlookup flt.field doc.data with
    | some v =>
      match flt.value with
      | .vInt n => Int.ofNat (getValueSize v) == n
      | _ => false
    | none => false
  | _ => false

/-- Embedding of `QueryBuilder` (query file): bound collection, filters,
sort key and order (1 ascending, -1 descending), limit and skip. -/
structure QueryBuilder where
  collection : Collection
  filters : List Filter
  sortBy : String
  sortOrder : Int
  limit : Int
  skip : Int

/-- Embedding of `Collection.NewQuery`: the fresh builder defaults. -/
def Collection.newQuery (c : Collection) : QueryBuilder :=
  { collection := c, filters := [], sortBy := (""), sortOrder := 1, limit := 0, skip := 0 }

/-- Embedding of `matchesFilters`: the conjunction of all filters. -/
def matchesFilters (qb : QueryBuilder) (doc : Document) : Bool :=
  qb.filters.all (fun flt => matchesFilter doc flt)

/-- The adjacent-swap test of `sortDocuments` (query file lines 1031-1043):
a document missing the sort field swaps behind a present one when
ascending and ahead when descending; two present values swap on the
strict comparison in the sort direction. -/
def shouldSwapDoc (sortBy : String) (sortOrder : Int) (d1 d2 : Document) : Bool :=
  match mlookup sortBy d1.data, mlookup sortBy d2.data with
  | none, some _ => sortOrder == 1
  | some _, none => sortOrder == -1
  | some v1, some v2 =>
    (sortOrder == 1 && decide (0 < compareValues v1 v2)) ||
      (sortOrder == -1 && decide (compareValues v1 v2 < 0))
  | none, none => false

/-- One left-to-right sweep of adjacent compare-and-swap — the inner loop
of the bubble sort in `sortDocuments`. -/
def onePass {α : Type} (swap : α → α → Bool) : List α → List α
  | [] => []
  | [x] => [x]
  | x :: y :: rest =>
    if swap x y then y :: onePass swap (x :: rest) else x :: onePass swap (y :: rest)
termination_by l => l.length

/-- One outer-loop iteration of the bubble sort: sweep the first `k`
elements, leave the rest in place (pass `i` of the Go loops sweeps
indices `0 .. n-i-1`). -/
def passPref {α : Type} (swap : α → α → Bool) (k : Nat) (l : List α) : List α :=
  onePass swap (l.take k) ++ l.drop k

/-- The remaining passes of the bubble sort: prefixes of length
`k+1, k, …, 2`. -/
def bubbleAux {α : Type} (swap : α → α → Bool) : Nat → List α → List α
  | 0, l => l
  | k + 1, l => bubbleAux swap k (passPref swap (k + 2) l)

/-- The full bubble sort of `sortDocuments` (query file lines 1027-1049):
`n-1` passes over shrinking prefixes. -/
def bubbleSortGo {α : Type} (swap : α → α → Bool) (l : List α) : List α :=
  bubbleAux swap (l.length - 1) l

/-- Embedding of `QueryBuilder.sortDocuments` (query file lines
1022-1050). -/
def sortDocuments (qb : QueryBuilder) (docs : List Document) : List Document :=
  if qb.sortBy = ("") then docs
  else bubbleSortGo (shouldSwapDoc qb.sortBy qb.sortOrder) docs

/-- Embedding of `QueryBuilder.Execute` (query file lines 790-821):
filter, sort when a sort key is set, apply skip, apply limit. -/
def QueryBuilder.execute (qb : QueryBuilder) : List Document :=
  let results := (qb.collection.documents.map Prod.snd).filter (fun d => matchesFilters qb d)
  let results1 := if qb.sortBy ≠ ("") then sortDocuments qb results else results
  let results2 :=
    if qb.skip > 0 ∧ qb.skip < (results1.length : Int) then results1.drop qb.skip.toNat
    else if qb.skip ≥ (results1.length : Int) then []
    else results1
  if qb.limit > 0 ∧ qb.limit < (results2.length : Int) then results2.take qb.limit.toNat
  else results2

/-- Embedding of `QueryBuilder.Count` (query file lines 824-836). -/
def QueryBuilder.count (qb : QueryBuilder) : Nat :=
  ((qb.collection.documents.map Prod.snd).filter (fun d => matchesFilters qb d)).length

/-- C6: Execute keeps exactly the documents matching the conjunction of
the filters, sorts them when a sort key is set, then (for skip ≥ 0 and
limit ≥ 0) drops the first `skip` survivors — empty whenever skip is at
least the number of matches — and truncates to `limit` elements when
limit is positive, while limit = 0 imposes no bound. -/
theorem C6_execute_pipeline (qb : QueryBuilder) (hs : 0 ≤ qb.skip) (hl : 0 ≤ qb.limit) :
    qb.execute =
      (let matched := (qb.collection.documents.map Prod.snd).filter
          (fun d => qb.filters.all (fun flt => matchesFilter d flt))
       let sorted := if qb.sortBy ≠ ("") then sortDocuments qb matched else matched
       let afterSkip := sorted.drop qb.skip.toNat
       if qb.limit = 0 then afterSkip else afterSkip.take qb.limit.toNat) := by
  simp only [QueryBuilder.execute, matchesFilters]
  generalize (if qb.sortBy ≠ ("") then
      sortDocuments qb ((qb.collection.documents.map Prod.snd).filter
        (fun d => qb.filters.all (fun flt => matchesFilter d flt)))
    else (qb.collection.documents.map Prod.snd).filter
        (fun d => qb.filters.all (fun flt => matchesFilter d flt))) = M
  have hskip : (if qb.skip > 0 ∧ qb.skip < (M.length : Int) then M.drop qb.skip.toNat
      else if qb.skip ≥ (M.length : Int) then []
      else M) = M.drop qb.skip.toNat := by
    by_cases hpos : 0 < qb.skip
    · by_cases hlt : qb.skip < (M.length : Int)
      · rw [if_pos ⟨hpos, hlt⟩]
      · rw [if_neg (fun hc => hlt hc.2), if_pos (le_of_not_lt hlt)]
        have hlen : M.length ≤ qb.skip.toNat := by omega
        exact (List.drop_eq_nil_of_le hlen).symm
    · have h0 : qb.skip = 0 := le_antisymm (not_lt.mp hpos) hs
      rw [if_neg (fun hc => hpos hc.1)]
      by_cases h2 : qb.skip ≥ (M.length : Int)
      · rw [if_pos h2]
        have hM0 : M = [] := List.length_eq_zero.mp (by omega)
        rw [hM0, h0]
        rfl
      · rw [if_neg h2, h0]
        rfl
  rw [hskip]
  by_cases hz : qb.limit = 0
  · rw [hz]
    simp
  · rw [if_neg hz]
    by_cases hlt2 : qb.limit < ((M.drop qb.skip.toNat).length : Int)
    · have hpos2 : qb.limit > 0 := by omega
      rw [if_pos ⟨hpos2, hlt2⟩]
    · rw [if_neg (fun hc => hlt2 hc.2)]
      have hlen : (M.drop qb.skip.toNat).length ≤ qb.limit.toNat := by omega
      exact (List.take_of_length_le hlen).symm

/-- Concrete query builder over a three-document collection, with one
filter, skip 1 and limit 1, for the C6 witness. -/
def C6qb : QueryBuilder :=
  { collection :=
      { name := ("t"),
        documents := [(("a"), { id := ("a"), data := [(("n"), Value.vInt 1)],
                                created_at := 0, updated_at := 0 }),
                      (("b"), { id := ("b"), data := [(("n"), Value.vInt 2)],
                                created_at := 0, updated_at := 0 }),
                      (("c"), { id := ("c"), data := [(("n"), Value.vInt 3)],
                                created_at := 0, updated_at := 0 })],
        indexes := [] },
    filters := [{ field := ("n"), operator := ("$gte"), value := Value.vInt 2 }],
    sortBy := (""),
    sortOrder := 1,
    limit := 1,
    skip := 1 }

/-- Witness for C6 at the concrete query builder. -/
theorem C6_execute_pipeline_witness :
    C6qb.execute =
      (let matched := (C6qb.collection.documents.map Prod.snd).filter
          (fun d => C6qb.filters.all (fun flt => matchesFilter d flt))
       let sorted := if C6qb.sortBy ≠ ("") then sortDocuments C6qb matched else matched
       let afterSkip := sorted.drop C6qb.skip.toNat
       if C6qb.limit = 0 then afterSkip else afterSkip.take C6qb.limit.toNat) :=
  C6_execute_pipeline C6qb (by decide) (by decide)

/-- A sweep preserves the length. -/
theorem onePass_length {α : Type} (swap : α → α → Bool) :
    ∀ (l : List α), (onePass swap l).length = l.length
  | [] => by simp [onePass]
  | [x] => by simp [onePass]
  | x :: y :: rest => by
    by_cases h : swap x y = true
    · simp [onePass, h, onePass_length swap (x :: rest)]
    · simp [onePass, h, onePass_length swap (y :: rest)]
termination_by l => l.length

/-- A sweep permutes the list. -/
theorem onePass_perm {α : Type} (swap : α → α → Bool) :
    ∀ (l : List α), (onePass swap l).Perm l
  | [] => by simp [onePass]
  | [x] => by simp [onePass]
  | x :: y :: rest => by
    by_cases h : swap x y = true
    · rw [onePass, if_pos h]
      exact ((onePass_perm swap (x :: rest)).cons y).trans (List.Perm.swap x y rest)
    · rw [onePass, if_neg h]
      exact (onePass_perm swap (y :: rest)).cons x
termination_by l => l.length

/-- A sweep never reorders two elements of a class inside which the swap
test is false, so the class subsequence is untouched. -/
theorem onePass_filter {α : Type} (p : α → Bool) (swap : α → α → Bool)
    (hp : ∀ a b, p a = true → p b = true → swap a b = false) :
    ∀ (l : List α), (onePass swap l).filter p = l.filter p
  | [] => by simp [onePass]
  | [x] => by simp [onePass]
  | x :: y :: rest => by
    by_cases h : swap x y = true
    · have hxy : ¬ (p x = true ∧ p y = true) := by
        rintro ⟨ha, hb⟩
        rw [hp x y ha hb] at h
        exact Bool.noConfusion h
      rw [onePass, if_pos h]
      have ihx := onePass_filter p swap hp (x :: rest)
      by_cases hpx : p x = true
      · have hpy : p y = false := by
          cases hy : p y
          · rfl
          · exact absurd ⟨hpx, hy⟩ hxy
        simp [List.filter_cons, hpx, hpy, ihx]
      · have hpx2 : p x = false := by
          cases hx : p x
          · rfl
          · exact absurd hx hpx
        simp [List.filter_cons, hpx2, ihx]
    · rw [onePass, if_neg h]
      have ihy := onePass_filter p swap hp (y :: rest)
      simp [List.filter_cons, ihy]
termination_by l => l.length

/-- If some element of the list is heavy (`q`), the sweep carries a heavy
element into the last position: heavies swap past lights and are never
overtaken. -/
theorem onePass_heavy_last {α : Type} (q : α → Bool) (swap : α → α → Bool)
    (h1 : ∀ a b, q a = true → q b = false → swap a b = true)
    (h2 : ∀ a b, q a = false → q b = true → swap a b = false) :
    ∀ (l : List α), (∃ x ∈ l, q x = true) →
      ∃ ys y, onePass swap l = ys ++ [y] ∧ q y = true
  | [] => by rintro ⟨x, hx, _⟩; simp at hx
  | [x] => by
    rintro ⟨x1, hx1, hq⟩
    rw [List.mem_singleton] at hx1
    subst hx1
    exact ⟨[], x1, by simp [onePass], hq⟩
  | x :: y :: rest => by
    rintro ⟨z, hz, hqz⟩
    by_cases h : swap x y = true
    · have hw : ∃ w ∈ x :: rest, q w = true := by
        rcases List.mem_cons.mp hz with h3 | h3
        · exact ⟨x, List.mem_cons_self _ _, h3 ▸ hqz⟩
        · rcases List.mem_cons.mp h3 with h4 | h4
          · cases hx : q x
            · rw [h2 x y hx (h4 ▸ hqz)] at h
              exact Bool.noConfusion h
            · exact ⟨x, List.mem_cons_self _ _, hx⟩
          · exact ⟨z, List.mem_cons_of_mem _ h4, hqz⟩
      obtain ⟨ys, b, heq, hqb⟩ := onePass_heavy_last q swap h1 h2 (x :: rest) hw
      rw [onePass, if_pos h, heq]
      exact ⟨y :: ys, b, by simp, hqb⟩
    · have hw : ∃ w ∈ y :: rest, q w = true := by
        rcases List.mem_cons.mp hz with h3 | h3
        · cases hy : q y
          · exact absurd (h1 x y (h3 ▸ hqz) hy) h
          · exact ⟨y, List.mem_cons_self _ _, hy⟩
        · exact ⟨z, h3, hqz⟩
      obtain ⟨ys, b, heq, hqb⟩ := onePass_heavy_last q swap h1 h2 (y :: rest) hw
      rw [onePass, if_neg h, heq]
      exact ⟨x :: ys, b, by simp, hqb⟩
termination_by l => l.length

/-- Two concat decompositions of one list share the last element. -/
theorem concat_last_eq {α : Type} {ys zs : List α} {b c : α}
    (h : ys ++ [b] = zs ++ [c]) : b = c := by
  have h1 : (ys ++ [b]).getLast? = (zs ++ [c]).getLast? := by rw [h]
  rw [List.getLast?_concat, List.getLast?_concat] at h1
  injection h1

/-- The order relation established by the bubble sort between a heavy
class `q` and its complement: once sorted, a heavy element is never
followed by a light one. -/
def relq {α : Type} (q : α → Bool) (a b : α) : Prop := q a = true → q b = true

/-- The invariant carried across bubble passes: beyond position `k` the
suffix is already `relq`-ordered and dominates nothing lighter before
it. -/
def BubbleInv {α : Type} (q : α → Bool) (k : Nat) (l : List α) : Prop :=
  List.Pairwise (relq q) (l.drop k) ∧ ∀ x ∈ l.take k, ∀ y ∈ l.drop k, relq q x y

/-- One pass over the prefix of length `k+2` extends the settled suffix
by one position. -/
theorem passPref_inv {α : Type} (q : α → Bool) (swap : α → α → Bool)
    (h1 : ∀ a b, q a = true → q b = false → swap a b = true)
    (h2 : ∀ a b, q a = false → q b = true → swap a b = false)
    (k : Nat) (l : List α) (hJ : BubbleInv q (k + 2) l) :
    BubbleInv q (k + 1) (passPref swap (k + 2) l) := by
  by_cases hlen : l.length ≤ k + 1
  · have ht : l.take (k + 2) = l := List.take_of_length_le (by omega)
    have hd : l.drop (k + 2) = [] := List.drop_eq_nil_of_le (by omega)
    have hd1 : (onePass swap l).drop (k + 1) = [] :=
      List.drop_eq_nil_of_le (by rw [onePass_length]; omega)
    unfold passPref
    rw [ht, hd, List.append_nil]
    constructor
    · rw [hd1]; exact List.Pairwise.nil
    · intro x hx y hy
      rw [hd1] at hy
      simp at hy
  · have hlt : k + 2 ≤ l.length := by omega
    have htl : (l.take (k + 2)).length = k + 2 := by rw [List.length_take]; omega
    have hol : (onePass swap (l.take (k + 2))).length = k + 2 := by
      rw [onePass_length, htl]
    rcases List.eq_nil_or_concat (onePass swap (l.take (k + 2))) with hnil | ⟨ys, b, hyb⟩
    · rw [hnil] at hol; simp at hol
    · rw [List.concat_eq_append] at hyb
      have hysl : ys.length = k + 1 := by
        rw [hyb, List.length_append, List.length_singleton] at hol
        omega
      unfold passPref
      rw [hyb]
      have hre : (ys ++ [b]) ++ l.drop (k + 2) = ys ++ (b :: l.drop (k + 2)) := by simp
      rw [hre]
      have htake : (ys ++ (b :: l.drop (k + 2))).take (k + 1) = ys := by
        rw [← hysl, List.take_left]
      have hdrop : (ys ++ (b :: l.drop (k + 2))).drop (k + 1) = b :: l.drop (k + 2) := by
        rw [← hysl, List.drop_left]
      constructor
      · rw [hdrop]
        refine List.pairwise_cons.mpr ⟨?_, hJ.1⟩
        intro y hy
        have hbmem : b ∈ l.take (k + 2) := by
          have hb1 : b ∈ onePass swap (l.take (k + 2)) := by rw [hyb]; simp
          exact (onePass_perm swap (l.take (k + 2))).mem_iff.mp hb1
        exact hJ.2 b hbmem y hy
      · rw [htake, hdrop]
        intro x hx y hy
        have hxmem : x ∈ l.take (k + 2) := by
          have hx1 : x ∈ onePass swap (l.take (k + 2)) := by
            rw [hyb]; exact List.mem_append_left _ hx
          exact (onePass_perm swap (l.take (k + 2))).mem_iff.mp hx1
        rcases List.mem_cons.mp hy with h4 | h4
        · subst h4
          intro hqx
          obtain ⟨ys2, b2, heq2, hqb2⟩ :=
            onePass_heavy_last q swap h1 h2 (l.take (k + 2)) ⟨x, hxmem, hqx⟩
          have hbb : y = b2 := concat_last_eq (hyb ▸ heq2)
          rw [hbb]
          exact hqb2
        · exact hJ.2 x hxmem y h4

/-- The remaining bubble passes shrink the frontier from `k+1` to `1`. -/
theorem bubbleAux_inv {α : Type} (q : α → Bool) (swap : α → α → Bool)
    (h1 : ∀ a b, q a = true → q b = false → swap a b = true)
    (h2 : ∀ a b, q a = false → q b = true → swap a b = false) :
    ∀ (k : Nat) (l : List α), BubbleInv q (k + 1) l →
      BubbleInv q 1 (bubbleAux swap k l) := by
  intro k
  induction k with
  | zero => intro l hJ; exact hJ
  | succ k ih =>
    intro l hJ
    rw [bubbleAux]
    exact ih _ (passPref_inv q swap h1 h2 k l hJ)

/-- After the full bubble sort a heavy element is never followed by a
light one. -/
theorem bubbleSortGo_pairwise {α : Type} (q : α → Bool) (swap : α → α → Bool)
    (h1 : ∀ a b, q a = true → q b = false → swap a b = true)
    (h2 : ∀ a b, q a = false → q b = true → swap a b = false)
    (l : List α) : List.Pairwise (relq q) (bubbleSortGo swap l) := by
  match l with
  | [] => exact List.Pairwise.nil
  | [x] => exact List.pairwise_singleton _ _
  | x :: y :: rest =>
    have hJ : BubbleInv q (rest.length + 2) (x :: y :: rest) := by
      constructor
      · rw [List.drop_eq_nil_of_le (by simp)]
        exact List.Pairwise.nil
      · intro a ha b hb
        rw [List.drop_eq_nil_of_le (by simp)] at hb
        simp at hb
    have hres := bubbleAux_inv q swap h1 h2 (rest.length + 1) (x :: y :: rest) hJ
    have hgo : bubbleSortGo swap (x :: y :: rest) =
        bubbleAux swap (rest.length + 1) (x :: y :: rest) := by
      unfold bubbleSortGo
      norm_num
    rw [hgo]
    rcases hsplit : bubbleAux swap (rest.length + 1) (x :: y :: rest) with _ | ⟨h0, t0⟩
    · exact List.Pairwise.nil
    · rw [hsplit] at hres
      refine List.pairwise_cons.mpr ⟨?_, ?_⟩
      · intro y2 hy2
        exact hres.2 h0 (by simp) y2 (by simpa using hy2)
      · simpa using hres.1

/-- The bubble sort never reorders two elements of a class inside which
the swap test is false. -/
theorem bubbleSortGo_filter {α : Type} (p : α → Bool) (swap : α → α → Bool)
    (hp : ∀ a b, p a = true → p b = true → swap a b = false) (l : List α) :
    (bubbleSortGo swap l).filter p = l.filter p := by
  suffices h : ∀ (k : Nat) (m : List α), (bubbleAux swap k m).filter p = m.filter p by
    exact h (l.length - 1) l
  intro k
  induction k with
  | zero => intro m; rfl
  | succ k ih =>
    intro m
    rw [bubbleAux, ih]
    unfold passPref
    rw [List.filter_append, onePass_filter p swap hp, ← List.filter_append,
      List.take_append_drop]

/-- Comparing equal character lists yields 0. -/
theorem strCmpAux_self : ∀ (cs : List Char), strCmpAux cs cs = 0
  | [] => rfl
  | c :: cs => by simp [strCmpAux, lt_irrefl, strCmpAux_self cs]

/-- The comparison class of a value under `compareValues`: its parsed
number when the stringification parses, otherwise the stringification
itself.  Two values compare equal exactly within one class. -/
def valKey (v : Value) : Sum ℚ String :=
  match goParseFloat (stringify v) with
  | some x => Sum.inl x
  | none => Sum.inr (stringify v)

/-- The sort key of a document for a query sort field: absent, or the
comparison class of the field value. -/
def docKey (sortBy : String) (d : Document) : Option (Sum ℚ String) :=
  (mlookup sortBy d.data).map valKey

/-- Values in the same comparison class compare equal. -/
theorem compareValues_eq_zero_of_valKey_eq {v1 v2 : Value} (h : valKey v1 = valKey v2) :
    compareValues v1 v2 = 0 := by
  unfold valKey at h
  rcases h1 : goParseFloat (stringify v1) with _ | x <;>
    rcases h2 : goParseFloat (stringify v2) with _ | y <;> rw [h1, h2] at h
  · injection h with h
    simp only [compareValues]
    rw [h1, h2, h]
    exact strCmpAux_self (stringify v2).data
  · simp at h
  · simp at h
  · injection h with h
    simp [compareValues, h1, h2, h, lt_irrefl]

/-- Documents with equal sort keys never swap. -/
theorem shouldSwapDoc_same_key (sortBy : String) (ord : Int) (d1 d2 : Document)
    (h : docKey sortBy d1 = docKey sortBy d2) :
    shouldSwapDoc sortBy ord d1 d2 = false := by
  unfold docKey at h
  rcases m1 : mlookup sortBy d1.data with _ | v1 <;>
    rcases m2 : mlookup sortBy d2.data with _ | v2 <;> rw [m1, m2] at h
  · simp [shouldSwapDoc, m1, m2]
  · simp at h
  · simp at h
  · simp only [Option.map_some'] at h
    injection h with h
    have hcmp : compareValues v1 v2 = 0 := compareValues_eq_zero_of_valKey_eq h
    simp [shouldSwapDoc, m1, m2, hcmp]

/-- C7: the QueryBuilder sort is stable — for every sort-key class the
class subsequence is exactly that of the input, so equal (or both-absent)
keys keep their relative order — and when a sort key is set, documents
missing the sort field come after all documents having it when ascending
and before all of them when descending. -/
theorem C7_sort_stable_and_missing_placement (qb : QueryBuilder) (l : List Document) :
    (∀ k : Option (Sum ℚ String),
      (sortDocuments qb l).filter (fun d => decide (docKey qb.sortBy d = k)) =
        l.filter (fun d => decide (docKey qb.sortBy d = k))) ∧
    (qb.sortBy ≠ ("") → qb.sortOrder = 1 →
      List.Pairwise (fun a b => (mlookup qb.sortBy a.data).isNone = true →
        (mlookup qb.sortBy b.data).isNone = true) (sortDocuments qb l)) ∧
    (qb.sortBy ≠ ("") → qb.sortOrder = -1 →
      List.Pairwise (fun a b => (mlookup qb.sortBy a.data).isSome = true →
        (mlookup qb.sortBy b.data).isSome = true) (sortDocuments qb l)) := by
  refine ⟨?_, ?_, ?_⟩
  · intro k
    unfold sortDocuments
    by_cases hsb : qb.sortBy = ("")
    · rw [if_pos hsb]
    · rw [if_neg hsb]
      apply bubbleSortGo_filter
      intro a b ha hb
      have ha2 := of_decide_eq_true ha
      have hb2 := of_decide_eq_true hb
      exact shouldSwapDoc_same_key _ _ _ _ (ha2.trans hb2.symm)
  · intro hsb hord
    unfold sortDocuments
    rw [if_neg hsb, hord]
    refine bubbleSortGo_pairwise (fun d => (mlookup qb.sortBy d.data).isNone)
      (shouldSwapDoc qb.sortBy 1) ?_ ?_ l
    · intro a b ha hb
      have ha2 : mlookup qb.sortBy a.data = none := Option.isNone_iff_eq_none.mp ha
      rcases hm : mlookup qb.sortBy b.data with _ | v
      · simp [hm] at hb
      · simp [shouldSwapDoc, ha2, hm]
    · intro a b ha hb
      have hb2 : mlookup qb.sortBy b.data = none := Option.isNone_iff_eq_none.mp hb
      rcases hm : mlookup qb.sortBy a.data with _ | v
      · simp [hm] at ha
      · simp [shouldSwapDoc, hb2, hm]
  · intro hsb hord
    unfold sortDocuments
    rw [if_neg hsb, hord]
    refine bubbleSortGo_pairwise (fun d => (mlookup qb.sortBy d.data).isSome)
      (shouldSwapDoc qb.sortBy (-1)) ?_ ?_ l
    · intro a b ha hb
      have hb2 : mlookup qb.sortBy b.data = none := by
        rcases hm : mlookup qb.sortBy b.data with _ | v
        · rfl
        · simp [hm] at hb
      rcases hm : mlookup qb.sortBy a.data with _ | v
      · simp [hm] at ha
      · simp [shouldSwapDoc, hb2, hm]
    · intro a b ha hb
      have ha2 : mlookup qb.sortBy a.data = none := by
        rcases hm : mlookup qb.sortBy a.data with _ | v
        · rfl
        · simp [hm] at ha
      rcases hm : mlookup qb.sortBy b.data with _ | v
      · simp [hm] at hb
      · simp [shouldSwapDoc, ha2, hm]

/-- Concrete ascending query builder on sort field `n` for the C7
witness. -/
def C7qb : QueryBuilder :=
  { collection := emptyCollection ("t"), filters := [], sortBy := ("n"),
    sortOrder := 1, limit := 0, skip := 0 }

/-- Concrete document list (present keys 2, 1 and one document missing
the sort field) for the C7 witness. -/
def C7docs : List Document :=
  [{ id := ("b"), data := [(("n"), Value.vInt 2)], created_at := 0, updated_at := 0 },
   { id := ("a"), data := [(("n"), Value.vInt 1)], created_at := 0, updated_at := 0 },
   { id := ("c"), data := [], created_at := 0, updated_at := 0 }]

/-- Witness for C7: stability filter at a concrete class and the
ascending missing-field placement at a concrete input. -/
theorem C7_sort_stable_and_missing_placement_witness :
    (sortDocuments C7qb C7docs).filter
        (fun d => decide (docKey C7qb.sortBy d = some (Sum.inl (1 : ℚ)))) =
      C7docs.filter (fun d => decide (docKey C7qb.sortBy d = some (Sum.inl (1 : ℚ)))) ∧
    List.Pairwise (fun a b => (mlookup C7qb.sortBy a.data).isNone = true →
      (mlookup C7qb.sortBy b.data).isNone = true) (sortDocuments C7qb C7docs) :=
  ⟨(C7_sort_stable_and_missing_placement C7qb C7docs).1 (some (Sum.inl (1 : ℚ))),
   (C7_sort_stable_and_missing_placement C7qb C7docs).2.1 (by decide) rfl⟩

/-- An aggregation input item (Go `map[string]interface{}`): the document
data plus reserved keys, embedded as an association list. -/
abbrev Item := List (String × Value)

/-- Embedding of `AggregateFunc` (query file): operation name and target
field. -/
structure AggregateFunc where
  operation : String
  field : String

/-- Embedding of `GroupStage` (query file): grouping key (a string names
a field; anything else groups everything under "null") and the aggregated
output fields. -/
structure GroupStage where
  id : Value
  fields : List (String × AggregateFunc)

/-- A value of an aggregation output row: the group key string, an
integer count, a float (exact rational in the model), or Go `nil`. -/
inductive AggValue where
  | aStr : String → AggValue
  | aInt : Int → AggValue
  | aNum : ℚ → AggValue
  | aNull : AggValue

/-- Numeric contribution of one item to a `sum`/`avg` on a field: its
parsed value when present and parsable, otherwise 0 (the Go loop simply
skips such items).  This is the exact-arithmetic idealization of the
float64 value; `itemNumF`/`sumAggF` below give the rounding-faithful
binary64 model. -/
def itemNum (f : String) (it : Item) : ℚ :=
  match mlookup f it with
  | some v =>
    match goParseFloat (stringify v) with
    | some q => q
    | none => 0
  | none => 0

/-- Whether an item contributes to the `avg` count: field present and
parsable. -/
def itemCountable (f : String) (it : Item) : Bool :=
  match mlookup f it with
  | some v => (goParseFloat (stringify v)).isSome
  | none => false

/-- Embedding of `calculateAggregation` (query file lines 1178-1249):
count, sum, avg, max, min over a group, unknown operations err.  The Go
float64 accumulations are idealized as exact rational arithmetic here;
the rounding-faithful binary64 model of the sum branch is `sumAggF`
below, and the C8 counterexample shows where the two differ. -/
def calculateAggregation (data : List Item) (af : AggregateFunc) : Except String AggValue :=
  match af.operation with
  | "count" => .ok (.aInt data.length)
  | "sum" => .ok (.aNum (data.foldl (fun acc it => acc + itemNum af.field it) 0))
  | "avg" =>
    let sum := data.foldl (fun acc it => acc + itemNum af.field it) 0
    let count := (data.filter (itemCountable af.field)).length
    if 0 < count then .ok (.aNum (sum / (count : ℚ))) else .ok (.aInt 0)
  | "max" =>
    match data.foldl (fun acc it =>
        match mlookup af.field it with
        | some v =>
          match goParseFloat (stringify v) with
          | some q =>
            match acc with
            | none => some q
            | some m => if m < q then some q else some m
          | none => acc
        | none => acc) none with
    | some m => .ok (.aNum m)
    | none => .ok .aNull
  | "min" =>
    match data.foldl (fun acc it =>
        match mlookup af.field it with
        | some v =>
          match goParseFloat (stringify v) with
          | some q =>
            match acc with
            | none => some q
            | some m => if q < m then some q else some m
          | none => acc
        | none => acc) none with
    | some m => .ok (.aNum m)
    | none => .ok .aNull
  | _ => .error ("unknown aggregation operation")

/-- Embedding of `getGroupKey` (query file lines 1169-1176). -/
def getGroupKey (s : GroupStage) (item : Item) : String :=
  match s.id with
  | .vStr idStr =>
    match mlookup idStr item with
    | some v => stringify v
    | none => ("null")
  | _ => ("null")

/-- Append an item to its group bucket (Go
`groups[groupKey] = append(groups[groupKey], item)`). -/
def bucketAdd : List (String × List Item) → String → Item → List (String × List Item)
  | [], k, it => [(k, [it])]
  | (k1, b) :: rest, k, it =>
    if k1 = k then (k1, b ++ [it]) :: rest else (k1, b) :: bucketAdd rest k it

/-- Build one output row: fold the aggregated fields over the group,
starting from the `_id` entry (Go `groupResult`). -/
def groupRowAux (bucket : List Item) :
    List (String × AggregateFunc) → List (String × AggValue) →
      Except String (List (String × AggValue))
  | [], row => .ok row
  | pr :: rest, row =>
    match calculateAggregation bucket pr.2 with
    | .ok v => groupRowAux bucket rest (mapInsert pr.1 v row)
    | .error e => .error e

/-- Build the output rows of all groups in order. -/
def groupsRows (s : GroupStage) :
    List (String × List Item) → Except String (List (List (String × AggValue)))
  | [] => .ok []
  | (k, b) :: rest =>
    match groupRowAux b s.fields [(("_id"), AggValue.aStr k)] with
    | .ok row =>
      match groupsRows s rest with
      | .ok rows => .ok (row :: rows)
      | .error e => .error e
    | .error e => .error e

/-- Embedding of `GroupStage.Process` (query file lines 1140-1167): group
the items by key, then aggregate each group into an output row. -/
def GroupStage.process (s : GroupStage) (data : List Item) :
    Except String (List (List (String × AggValue))) :=
  groupsRows s (data.foldl (fun gs it => bucketAdd gs (getGroupKey s it) it) [])

/-- The sum carried by an output row under a given field name (0 when
the field is not a float value). -/
def rowSumVal (fieldName : String) (row : List (String × AggValue)) : ℚ :=
  match mlookup fieldName row with
  | some (.aNum q) => q
  | _ => 0

/-- The running-sum fold is the list sum. -/
theorem foldl_add_itemNum (f : String) :
    ∀ (l : List Item) (a : ℚ),
      l.foldl (fun acc it => acc + itemNum f it) a = a + (l.map (itemNum f)).sum := by
  intro l
  induction l with
  | nil => intro a; simp
  | cons it l ih =>
    intro a
    rw [List.foldl_cons, ih, List.map_cons, List.sum_cons]
    ring

/-- The sum aggregation computes the sum of the numeric contributions. -/
theorem calcAgg_sum (b : List Item) (f : String) :
    calculateAggregation b { operation := ("sum"), field := f } =
      .ok (.aNum ((b.map (itemNum f)).sum)) := by
  show Except.ok (AggValue.aNum (b.foldl (fun acc it => acc + itemNum f it) 0)) = _
  rw [foldl_add_itemNum, zero_add]

/-- Row building over fields that do not mention a name leaves that
name's entry unchanged. -/
theorem groupRowAux_preserve {fieldName : String} {b : List Item} :
    ∀ (fs : List (String × AggregateFunc)) (row0 row : List (String × AggValue)),
      fieldName ∉ fs.map Prod.fst → groupRowAux b fs row0 = .ok row →
      mlookup fieldName row = mlookup fieldName row0 := by
  intro fs
  induction fs with
  | nil =>
    intro row0 row _ h
    injection h with h
    rw [h]
  | cons pr fs ih =>
    intro row0 row hnm h
    rw [List.map_cons, List.mem_cons] at hnm
    push_neg at hnm
    rw [groupRowAux] at h
    rcases hc : calculateAggregation b pr.2 with e | v
    · rw [hc] at h
      exact Except.noConfusion h
    · rw [hc] at h
      rw [ih (mapInsert pr.1 v row0) row hnm.2 h]
      exact mlookup_mapInsert_ne hnm.1 v row0

/-- When the field list carries a sum on `f` under `fieldName` (keys
distinct), the built row carries the group's sum there. -/
theorem groupRowAux_sum {fieldName f : String} {b : List Item} :
    ∀ (fs : List (String × AggregateFunc)) (row0 row : List (String × AggValue)),
      (fs.map Prod.fst).Nodup →
      mlookup fieldName fs = some { operation := ("sum"), field := f } →
      groupRowAux b fs row0 = .ok row →
      mlookup fieldName row = some (.aNum ((b.map (itemNum f)).sum)) := by
  intro fs
  induction fs with
  | nil =>
    intro row0 row _ haf _
    simp [mlookup] at haf
  | cons pr fs ih =>
    intro row0 row hnd haf h
    rw [List.map_cons, List.nodup_cons] at hnd
    rw [groupRowAux] at h
    by_cases hp : pr.1 = fieldName
    · rw [mlookup, if_pos hp] at haf
      injection haf with haf
      rw [haf, calcAgg_sum] at h
      have hnm : fieldName ∉ fs.map Prod.fst := hp ▸ hnd.1
      rw [groupRowAux_preserve fs _ row hnm h, ← hp,
        mlookup_mapInsert_self pr.1 _ row0]
    · rw [mlookup, if_neg hp] at haf
      rcases hc : calculateAggregation b pr.2 with e | v
      · rw [hc] at h
        exact Except.noConfusion h
      · rw [hc] at h
        exact ih _ row hnd.2 haf h

/-- Summing the per-row sums equals summing the per-bucket sums. -/
theorem groupsRows_sum {s : GroupStage} {fieldName f : String}
    (hnd : (s.fields.map Prod.fst).Nodup)
    (haf : mlookup fieldName s.fields = some { operation := ("sum"), field := f }) :
    ∀ (groups : List (String × List Item)) (rows : List (List (String × AggValue))),
      groupsRows s groups = .ok rows →
      (rows.map (rowSumVal fieldName)).sum =
        (groups.map (fun pr => ((pr.2.map (itemNum f)).sum))).sum := by
  intro groups
  induction groups with
  | nil =>
    intro rows h
    injection h with h
    rw [← h]
    simp
  | cons pr rest ih =>
    intro rows h
    obtain ⟨k, b⟩ := pr
    rw [groupsRows] at h
    rcases hr : groupRowAux b s.fields [(("_id"), AggValue.aStr k)] with e | row
    · rw [hr] at h
      exact Except.noConfusion h
    · rw [hr] at h
      rcases hrest : groupsRows s rest with e | rows2
      · rw [hrest] at h
        exact Except.noConfusion h
      · rw [hrest] at h
        injection h with h
        rw [← h, List.map_cons, List.sum_cons, List.map_cons, List.sum_cons,
          ih rows2 hrest]
        have hrow : rowSumVal fieldName row = (b.map (itemNum f)).sum := by
          unfold rowSumVal
          rw [groupRowAux_sum s.fields _ row hnd haf hr]
        rw [hrow]

/-- Adding an item to its bucket adds its contribution to the bucket
totals. -/
theorem bucketAdd_sum (g : Item → ℚ) :
    ∀ (gs : List (String × List Item)) (k : String) (it : Item),
      ((bucketAdd gs k it).map (fun pr => ((pr.2.map g).sum))).sum =
        ((gs.map (fun pr => ((pr.2.map g).sum))).sum) + g it := by
  intro gs
  induction gs with
  | nil => intro k it; simp [bucketAdd]
  | cons pr rest ih =>
    intro k it
    obtain ⟨k1, b⟩ := pr
    rw [bucketAdd]
    by_cases hk : k1 = k
    · rw [if_pos hk]
      simp only [List.map_cons, List.sum_cons, List.map_append, List.sum_append]
      simp [List.sum_append]
      ring
    · rw [if_neg hk]
      simp only [List.map_cons, List.sum_cons, ih]
      ring

/-- The grouping fold partitions the input: bucket totals sum to the
input total. -/
theorem groupsOf_sum (s : GroupStage) (g : Item → ℚ) :
    ∀ (data : List Item) (gs0 : List (String × List Item)),
      (((data.foldl (fun gs it => bucketAdd gs (getGroupKey s it) it) gs0).map
          (fun pr => ((pr.2.map g).sum))).sum) =
        ((gs0.map (fun pr => ((pr.2.map g).sum))).sum) + (data.map g).sum := by
  intro data
  induction data with
  | nil => intro gs0; simp
  | cons it data ih =>
    intro gs0
    rw [List.foldl_cons, ih, bucketAdd_sum, List.map_cons, List.sum_cons]
    ring

/-- C8 (amended): for a group stage carrying a sum aggregation on field
`f` under some output name (output names distinct, as Go map keys are),
whenever Process succeeds the sum of the groups' sums equals the sum of
the numeric contributions of all input items — items whose `f` value is
missing or unparsable contribute 0 — PROVIDED the accumulation is read
with exact (unrounded) arithmetic.  Under the program's float64
arithmetic each addition rounds and the identity can fail; see
`C8_counterexample`. -/
theorem C8_group_sum_identity (s : GroupStage) (f fieldName : String) (data : List Item)
    (haf : mlookup fieldName s.fields = some { operation := ("sum"), field := f })
    (hnd : (s.fields.map Prod.fst).Nodup) :
    ∀ rows, s.process data = .ok rows →
      (rows.map (rowSumVal fieldName)).sum = (data.map (itemNum f)).sum := by
  intro rows h
  unfold GroupStage.process at h
  rw [groupsRows_sum hnd haf _ rows h, groupsOf_sum s (itemNum f) data []]
  simp

/-- Concrete group stage (group by `cat`, sum of `amt` as `total`) for
the C8 witness. -/
def C8stage : GroupStage :=
  { id := Value.vStr ("cat"),
    fields := [(("total"), { operation := ("sum"), field := ("amt") })] }

/-- Concrete input items for the C8 witness: two groups, amounts 1, 2, 3. -/
def C8data : List Item :=
  [[(("cat"), Value.vStr ("a")), (("amt"), Value.vInt 1)],
   [(("cat"), Value.vStr ("b")), (("amt"), Value.vInt 2)],
   [(("cat"), Value.vStr ("a")), (("amt"), Value.vInt 3)]]

/-- The rows Process produces on the concrete C8 input. -/
def C8rows : List (List (String × AggValue)) :=
  [[(("_id"), AggValue.aStr ("a")), (("total"), AggValue.aNum 4)],
   [(("_id"), AggValue.aStr ("b")), (("total"), AggValue.aNum 2)]]

/-- Witness for C8 at the concrete stage and items. -/
theorem C8_group_sum_identity_witness :
    (C8rows.map (rowSumVal ("total"))).sum = (C8data.map (itemNum ("amt"))).sum :=
  C8_group_sum_identity C8stage ("amt") ("total") C8data rfl (by decide) C8rows (by rfl)

/-- Two to an integer power, as a rational. -/
def qpow2 (e : Int) : ℚ :=
  if 0 ≤ e then (2 : ℚ) ^ e.toNat else 1 / (2 : ℚ) ^ (-e).toNat

/-- Fuel-bounded upward binary-exponent search: for `a ≥ 1`, halve until
below 2, counting the halvings. -/
def floorLog2Up : Nat → ℚ → Int → Int
  | 0, _, e => e
  | fuel + 1, a, e => if a < 2 then e else floorLog2Up fuel (a / 2) (e + 1)

/-- Fuel-bounded downward binary-exponent search: for `a < 1`, double
until at least 1, counting the doublings. -/
def floorLog2Down : Nat → ℚ → Int → Int
  | 0, _, e => e
  | fuel + 1, a, e => if 1 ≤ a then e else floorLog2Down fuel (a * 2) (e - 1)

/-- Binary exponent of a positive rational: the `e` with
`2^e ≤ a < 2^(e+1)`.  The fuel 4200 bounds the exponent magnitude and is
far beyond the binary64 range (±1075), so every value the float model is
accountable for is covered. -/
def floorLog2 (a : ℚ) : Int :=
  if 1 ≤ a then floorLog2Up 4200 a 0 else floorLog2Down 4200 a 0

/-- Round a rational to the nearest integer, ties to even (the IEEE-754
default rounding of the fractional part). -/
def roundHalfEven (x : ℚ) : Int :=
  let f : Int := ⌊x⌋
  let r : ℚ := x - (f : ℚ)
  if r < 1 / 2 then f
  else if 1 / 2 < r then f + 1
  else if f % 2 = 0 then f else f + 1

/-- Round a rational to the nearest IEEE-754 binary64 value (53-bit
significand, round to nearest, ties to even; granularity clamped at the
subnormal ulp `2^-1074`).  Finite behavior only: results whose magnitude
would overflow to infinity are returned unrounded-in-exponent instead,
and the infinities/NaN themselves are outside the model — the C8
counterexample stays far inside the normal range (around `1e100`). -/
def roundDouble (q : ℚ) : ℚ :=
  if q = 0 then 0
  else
    let a : ℚ := if q < 0 then -q else q
    let e : Int := max (floorLog2 a - 52) (-1074)
    let n : Int := roundHalfEven (a / qpow2 e)
    (if q < 0 then (-1 : ℚ) else 1) * (n : ℚ) * qpow2 e

/-- Rounding-faithful binary64 value of an item's field for the sum
aggregation: the ParseFloat result is the parsed value rounded to
binary64; missing or unparsable fields contribute 0. -/
def itemNumF (f : String) (it : Item) : ℚ :=
  match mlookup f it with
  | some v =>
    match goParseFloat (stringify v) with
    | some q => roundDouble q
    | none => 0
  | none => 0

/-- Rounding-faithful binary64 model of the sum branch of
`calculateAggregation` (query file lines 1184-1192): `sum += num` rounds
after each addition, and `num` is the already-rounded ParseFloat
result. -/
def sumAggF (f : String) (data : List Item) : ℚ :=
  data.foldl (fun acc it =>
    match mlookup f it with
    | some v =>
      match goParseFloat (stringify v) with
      | some q => roundDouble (acc + roundDouble q)
      | none => acc
    | none => acc) 0

/-- Input items for the C8 counterexample: group `a` holds `1e100` and
`1`, group `b` holds `-1e100`; all three amounts parse. -/
def C8Fdata : List Item :=
  [[(("cat"), Value.vStr ("a")), (("amt"), Value.vStr ("1e100"))],
   [(("cat"), Value.vStr ("a")), (("amt"), Value.vInt 1)],
   [(("cat"), Value.vStr ("b")), (("amt"), Value.vStr ("-1e100"))]]

set_option maxRecDepth 40000 in
/-- C8 counterexample: under the program's float64 arithmetic the claimed
identity fails.  Grouping `C8Fdata` exactly as the program does (the
grouping involves no arithmetic and is shared with the embedding), group
`a`'s float64 sum is `fl(fl(0 + fl(1e100)) + 1) = fl(1e100)` — the `+1`
is absorbed by rounding, since the ulp at `1e100` is about `2^280` — and
group `b`'s is `-fl(1e100)`, so the group sums total 0; yet all three
inputs parse and their float64 values total 1.  `0 ≠ 1` refutes the
claim as stated. -/
theorem C8_counterexample :
    ((C8Fdata.foldl (fun gs it => bucketAdd gs (getGroupKey C8stage it) it) []).map
        (fun pr => sumAggF ("amt") pr.2)).sum = 0 ∧
    (C8Fdata.map (itemNumF ("amt"))).sum = 1 ∧
    (C8Fdata.filter (itemCountable ("amt"))).length = 3 := by
  refine ⟨by decide, by decide, by decide⟩

end EngineNoSQL
